import Mathlib

/-!
# wc-threaded.c : a verification development

A shallow embedding of `src/wc-threaded.c` (one scanner thread per file, totals
summed and printed by `main`) and theorems about it.

Modelling conventions.

* A file is a finite sequence of bytes (`List Byte`, `Byte = Fin 256`).
* The C library stream `FILE` is a state: the bytes not yet read (a byte pushed
  back by `ungetc` is the head of that list) and the end-of-file indicator.
  `fgetc`, `ungetc`, `feof` and `isspace` follow ISO C and glibc in the "C" locale.
  Reads never fail with an I/O error.
* `char` is the signed 8-bit type of the x86 ABI: storing the `int` that `fgetc`
  returns into a `char` maps 128..255 to -128..-1, so the byte 0xFF and `EOF`
  both become -1.
* The per-file `int` counters are mathematical integers (`Int`): a counter can only
  leave the range of a 32-bit `int` on a file of 2^31 bytes or more
  (`scanCounts_bounds`). The totals of `main` are 32-bit: each `+=` wraps in two's
  complement (`wrap32`), which is what the compiled program does.
* Each scanner thread reads its own file and writes its own slot of the array, so
  the threads are run as independent function calls, one per slot. A call of
  `pthread_create` may fail; its thread then never runs, and the `pthread_join` on
  it is taken to return at once.
* The streams of `FileSystem` deliver their bytes and then reach end of file. A
  stream whose reads fail (a directory) is treated apart, by `fgetc_failing` and
  `scan_pass`: on it the loop of `process_file` does not end.
-/

namespace WcThreaded

/-! ## Bytes, `char` and `<ctype.h>` -/

/-- One byte of a file or of a C string. -/
abbrev Byte := Fin 256

/-- The value `EOF` of `<stdio.h>`. -/
def EOF : Int := -1

/-- Conversion of an `int` to `char` (signed, 8 bits): what the assignments
`ch = fgetc(fp)` and `next_ch = fgetc(fp)` do to the value read. -/
def toChar (v : Int) : Int := (v + 128) % 256 - 128

/-- Conversion of an `int` to `unsigned char`: what `ungetc` does to its argument
before pushing it back. -/
def toUChar (v : Int) : Byte := ⟨(v % 256).toNat, by omega⟩

/-- The function `isspace` of `<ctype.h>` in the "C" locale: space, and the five
characters from horizontal tab (9) to carriage return (13). Every other value,
`EOF` and the negative `char` values included, is not white space. -/
def isspace (c : Int) : Bool := c == 32 || (decide (9 ≤ c) && decide (c ≤ 13))

/-! ## `<stdio.h>` streams -/

/-- A stream opened for reading: `buf` holds the bytes still to be read, `eof` is
the end-of-file indicator. -/
structure FILE where
  buf : List Byte
  eof : Bool
deriving DecidableEq, Repr

/-- The function `fgetc`: the next byte as a value 0..255, or `EOF` with the
end-of-file indicator set when no byte is left. -/
def fgetc (fp : FILE) : Int × FILE :=
  match fp.buf with
  | [] => (EOF, { fp with eof := true })
  | b :: rest => ((b.val : Int), { fp with buf := rest })

/-- The function `ungetc`: pushes `c`, converted to `unsigned char`, back on the
stream and clears the end-of-file indicator; when `c` equals `EOF` the call fails
and leaves the stream unchanged. -/
def ungetc (c : Int) (fp : FILE) : FILE :=
  if c = EOF then fp else { buf := toUChar c :: fp.buf, eof := false }

/-- The function `feof`: the end-of-file indicator. -/
def feof (fp : FILE) : Bool := fp.eof

/-! ## The scanner -/

/-- The constant `MAX_FILENAME_LEN`. -/
def MAX_FILENAME_LEN : Nat := 256

/-- The struct `file_stats_t`: the `filename` array and the three counters. -/
structure file_stats_t where
  filename : List Byte
  lines : Int
  words : Int
  chars : Int
deriving DecidableEq, Repr

/-- The files of the machine: the contents of the file a path names when `fopen`
succeeds on it, `none` when `fopen` returns `NULL`. -/
abbrev FileSystem := List Byte → Option (List Byte)

/-- The call `fopen(stats->filename, "r")`: the path is the C string held in the
array, its bytes up to the first NUL. An array with no NUL is read up to its end:
that is the path the real call opens when the byte after the array (the first byte
of `lines`) is zero, as in a zero-filled slot; when it is not, the real call reads
on into the counters, which this definition does not follow. -/
def fopen (fs : FileSystem) (filename : List Byte) : Option FILE :=
  (fs (filename.takeWhile (fun b => b ≠ 0))).map (fun bytes => { buf := bytes, eof := false })

/-- The measure that decreases along the scan loop: bytes left, plus one while the
end-of-file indicator is clear. -/
def FILE.remaining (fp : FILE) : Nat := fp.buf.length + (if fp.eof then 0 else 1)

/-- The counting part of one pass of the loop (lines 45 to 54), for the current
character `ch`, the lookahead `next_ch` and the value `atEof` of `feof(fp)` after
the lookahead. -/
def count_step (ch next_ch : Int) (atEof : Bool) (stats : file_stats_t) : file_stats_t :=
  -- if (ch == '\n') stats->lines++;
  let stats1 := if ch = 10 then { stats with lines := stats.lines + 1 } else stats
  -- if (!isspace(ch) && (isspace(next_ch) || feof(fp))) stats->words++;
  let stats2 :=
    if (!isspace ch && (isspace next_ch || atEof)) = true
    then { stats1 with words := stats1.words + 1 } else stats1
  -- stats->chars++;
  { stats2 with chars := stats2.chars + 1 }

/-- The loop of `process_file` (lines 40 to 58), entered with the current character
`ch` already read. -/
def scan_loop (ch : Int) (fp : FILE) (stats : file_stats_t) : file_stats_t :=
  if _h : feof fp = true then stats
  else
    -- next_ch = fgetc(fp); ungetc(next_ch, fp);
    let next_ch := toChar (fgetc fp).1
    let fp1 := ungetc next_ch (fgetc fp).2
    let stats1 := count_step ch next_ch (feof fp1) stats
    -- ch = fgetc(fp);
    scan_loop (toChar (fgetc fp1).1) (fgetc fp1).2 stats1
termination_by fp.remaining
decreasing_by
  have he : fp.eof = false := by simpa [feof] using _h
  unfold fgetc ungetc FILE.remaining
  cases hb : fp.buf with
  | nil => simp [he, EOF, toChar]
  | cons b rest =>
    simp only [he]
    by_cases hc : toChar (b.val : Int) = EOF
    · simp only [hc, if_true]
      cases rest with
      | nil => simp
      | cons c rest2 => simp
    · simp [hc]

/-- The part of `process_file` that follows a successful `fopen` (lines 36 to 58):
the counters are set to zero, the first character is read and the loop runs. -/
def scan_stream (fp : FILE) (stats : file_stats_t) : file_stats_t :=
  -- stats->lines = stats->words = stats->chars = 0;
  let stats0 := { stats with lines := 0, words := 0, chars := 0 }
  -- ch = fgetc(fp);
  scan_loop (toChar (fgetc fp).1) (fgetc fp).2 stats0

/-- The thread function `process_file`, as a function of the slot it is given: when
`fopen` fails the thread exits and the slot is left as it was; otherwise the stream
is scanned into the slot. -/
def process_file (fs : FileSystem) (stats : file_stats_t) : file_stats_t :=
  match fopen fs stats.filename with
  | none => stats
  | some fp => scan_stream fp stats

/-! ## The dispatcher -/

/-- The function `strncpy` into an array of exactly `n` bytes: the bytes of the C
string `src` (up to its first NUL), cut at `n` bytes, and padded with NULs up to `n`
bytes when the string is shorter. -/
def strncpy (src : List Byte) (n : Nat) : List Byte :=
  let s := src.takeWhile (fun b => b ≠ 0)
  (s ++ List.replicate (n - s.length) 0).take n

/-- The character for the decimal digit `d`. -/
def digitChar (d : Nat) : Char := Char.ofNat (48 + d)

/-- Decimal digits of `n`, most significant first, produced by repeated division by
ten; `fuel` bounds the number of divisions. -/
def utoa : Nat → Nat → List Char
  | 0, _ => []
  | fuel + 1, n => if n < 10 then [digitChar n] else utoa fuel (n / 10) ++ [digitChar (n % 10)]

/-- The conversion `%d` of `printf` with a minimum field width: a minus sign for a
negative value, the decimal digits, and spaces on the left up to `width`
characters. -/
def fmt_d (width : Nat) (v : Int) : List Char :=
  let body := (if v < 0 then ['-'] else []) ++ utoa (v.natAbs + 1) v.natAbs
  List.replicate (width - body.length) ' ' ++ body

/-- The text `printf("%4d %4d %4d\n", l, w, c)` writes. -/
def printf_totals (l w c : Int) : String :=
  String.mk (fmt_d 4 l ++ [' '] ++ fmt_d 4 w ++ [' '] ++ fmt_d 4 c ++ ['\n'])

/-- Conversion of an integer to a 32-bit `int`, two's complement: what an `int`
variable holds after an addition whose exact result is `v`. -/
def wrap32 (v : Int) : Int := (v + 2147483648) % 4294967296 - 2147483648

/-- What a run of the program depends on besides its arguments: the file system,
the results of the two `malloc` calls and of the `pthread_create` calls.
`malloc_stats` is `none` when the first call returns `NULL`, and otherwise gives the
indeterminate contents of each slot of the block it returns; `malloc_threads` tells
whether the second call succeeds; `thread_created k` tells whether the
`pthread_create` call for slot `k` succeeds. -/
structure Machine where
  fs : FileSystem
  malloc_stats : Option (Nat → file_stats_t)
  malloc_threads : Bool
  thread_created : Nat → Bool

/-- The call `pthread_create(&threads[k], NULL, process_file, &file_stats[k])` and
the run of the thread it starts, as a function of the slot: when the call fails no
thread runs and the slot is left as it was (the source does not test the result of
the call). -/
def pthread_create (created : Bool) (fs : FileSystem) (slot : file_stats_t) : file_stats_t :=
  if created then process_file fs slot else slot

/-- The array `file_stats` once every thread has finished: the first loop of `main`
(lines 87 to 94), for `i` from 1 to `argc - 1`, copies `argv[i]` into slot `i - 1` and
starts `process_file` on that slot. -/
def run_threads (m : Machine) (argv : List (List Byte)) (file_stats : Nat → file_stats_t) :
    Nat → file_stats_t :=
  (List.range' 1 (argv.length - 1)).foldl
    (fun arr i =>
      Function.update arr (i - 1)
        (pthread_create (m.thread_created (i - 1)) m.fs { arr (i - 1) with
          filename := strncpy (argv.getD i []) MAX_FILENAME_LEN }))
    file_stats

/-- The second loop of `main` (lines 98 to 103): the three `int` totals, each
increased by the counter of slot `i - 1` for `i` from 1 to `argc - 1`. -/
def sum_stats (argc : Nat) (file_stats : Nat → file_stats_t) : Int × Int × Int :=
  (List.range' 1 (argc - 1)).foldl
    (fun t i =>
      (wrap32 (t.1 + (file_stats (i - 1)).lines),
       wrap32 (t.2.1 + (file_stats (i - 1)).words),
       wrap32 (t.2.2 + (file_stats (i - 1)).chars)))
    (0, 0, 0)

/-- The result of a run: the exit status and the text written to standard output. -/
structure Outcome where
  status : Int
  stdout : String
deriving DecidableEq, Repr

/-- The function `main`; `argv` holds `argc` strings, the program name first. -/
def main (m : Machine) (argv : List (List Byte)) : Outcome :=
  let argc := argv.length
  if argc < 2 then { status := 1, stdout := "" }
  else
    match m.malloc_stats with
    | none => { status := 1, stdout := "" }
    | some file_stats =>
      if m.malloc_threads = false then { status := 1, stdout := "" }
      else
        let totals := sum_stats argc (run_threads m argv file_stats)
        { status := 0, stdout := printf_totals totals.1 totals.2.1 totals.2.2 }

/-! ## A closed form of the scan loop -/

/-- What one pass of the loop adds for the current character `ch`, given whether
the word test succeeds there. -/
def bump (ch : Int) (wordEnd : Bool) : Int × Int × Int :=
  (if ch = 10 then 1 else 0, if wordEnd then 1 else 0, 1)

/-- Component-wise sum of two (lines, words, chars) triples. -/
def addT (a b : Int × Int × Int) : Int × Int × Int :=
  (a.1 + b.1, a.2.1 + b.2.1, a.2.2 + b.2.2)

/-- The counts the loop adds when entered with current character `ch`, the
end-of-file indicator clear and the bytes `buf` still unread. A byte that becomes -1
as a `char` (0xFF) is consumed by the lookahead and not pushed back. -/
def tally : Int → List Byte → Int × Int × Int
  | ch, [] => bump ch (!isspace ch)
  | ch, b :: rest =>
    if toChar (b.val : Int) = EOF then
      match rest with
      | [] => bump ch false
      | c :: rest2 => addT (bump ch false) (tally (toChar (c.val : Int)) rest2)
    else
      addT (bump ch (!isspace ch && isspace (toChar (b.val : Int))))
        (tally (toChar (b.val : Int)) rest)

/-- Adds a triple of counts to the counters of a slot. -/
def file_stats_t.add (s : file_stats_t) (t : Int × Int × Int) : file_stats_t :=
  { s with lines := s.lines + t.1, words := s.words + t.2.1, chars := s.chars + t.2.2 }

/-- The counts the scanner adds to the zeroed counters for a file with the bytes
`file`: nothing for the empty file, otherwise `tally` from the first byte. -/
def scanCounts (file : List Byte) : Int × Int × Int :=
  match file with
  | [] => (0, 0, 0)
  | b :: rest => tally (toChar (b.val : Int)) rest

/-! ## The quantities the specification speaks of -/

/-- White space as the specification lists it: space, tab, newline, vertical tab,
form feed, carriage return. -/
def isWhitespace (b : Byte) : Bool :=
  b == 0x20 || b == 0x09 || b == 0x0A || b == 0x0B || b == 0x0C || b == 0x0D

/-- The number of newline bytes (0x0A) of a file. -/
def newlineCount (file : List Byte) : Nat := file.count 0x0A

/-- Position `i` of the file ends a maximal run of non-whitespace bytes: its byte is
not white space, and the next position holds white space or is past the end. -/
def wordEndAt (file : List Byte) (i : Nat) : Bool :=
  match file.get? i with
  | none => false
  | some b =>
    !isWhitespace b &&
      (match file.get? (i + 1) with
       | none => true
       | some c => isWhitespace c)

/-- The number of maximal runs of non-whitespace bytes of a file, counted at the
last position of each run. -/
def wordRunCount (file : List Byte) : Nat :=
  (List.range file.length).countP (wordEndAt file)

/-- The slot as `process_file` leaves it on a file that opens, in terms of the three
counts. -/
def file_stats_t.counts (s : file_stats_t) : Int × Int × Int := (s.lines, s.words, s.chars)

/-- The triple (lines, words, chars) the scanner produces for a file with the bytes
`file`: the counters `process_file` leaves in a slot after the file has opened. -/
def scanner (file : List Byte) : Int × Int × Int :=
  (scan_stream { buf := file, eof := false }
    { filename := [], lines := 0, words := 0, chars := 0 }).counts

/-- The path `process_file` opens for the command-line argument `arg`: the C string
held in the `filename` array after `main` has copied `arg` into it. -/
def path_of (arg : List Byte) : List Byte :=
  (strncpy arg MAX_FILENAME_LEN).takeWhile (fun b => b ≠ 0)

/-- The slot of thread `i` once the thread has finished: `argv[i]` copied into slot
`i - 1` of the block, then `process_file` run on it. -/
def thread_result (fs : FileSystem) (file_stats : Nat → file_stats_t) (argv : List (List Byte))
    (i : Nat) : file_stats_t :=
  process_file fs { file_stats (i - 1) with filename := strncpy (argv.getD i []) MAX_FILENAME_LEN }

/-- The decimal rendering of a natural number: the character '0' for zero, otherwise
its base-ten digits, most significant first, with no leading zero. -/
def decimal (n : Nat) : List Char :=
  if n = 0 then ['0'] else (Nat.digits 10 n).reverse.map Nat.digitChar

/-- A field of the output line: the decimal rendering, with spaces on the left when
it has fewer than four characters. -/
def field4 (n : Nat) : List Char :=
  List.replicate (4 - (decimal n).length) ' ' ++ decimal n

/-- The output line for the totals `l`, `w`, `c`: the three fields in that order,
one space between them, a newline at the end. -/
def totals_line (l w c : Nat) : String :=
  String.mk (field4 l ++ [' '] ++ field4 w ++ [' '] ++ field4 c ++ ['\n'])

/-- A slot of the array as `main` hands it to a thread: the file name "f" copied in
by `strncpy`, and counters left over from earlier use of the memory. -/
def sampleSlot : file_stats_t :=
  { filename := strncpy [0x66] MAX_FILENAME_LEN, lines := 41, words := 42, chars := 43 }

/-- A file system in which every path opens and holds the bytes `file`. -/
def onlyFile (file : List Byte) : FileSystem := fun _ => some file

/-- The program name "wc", as `argv[0]`. -/
def progName : List Byte := [0x77, 0x63]

/-- A machine on which no path opens, both allocations succeed, and every slot of the
block `malloc` returns holds the counters 7, 8, 9 left by earlier use of the memory. -/
def staleMachine : Machine :=
  { fs := fun _ => none,
    malloc_stats := some (fun _ =>
      { filename := List.replicate MAX_FILENAME_LEN 0, lines := 7, words := 8, chars := 9 }),
    malloc_threads := true,
    thread_created := fun _ => true }

/-- A machine with two files, "a" holding "a b\n" and "b" holding "c\n"; both
allocations succeed and the slots hold stale counters. -/
def twoFileMachine : Machine :=
  { fs := fun p =>
      if p = [0x61] then some [0x61, 0x20, 0x62, 0x0A]
      else if p = [0x62] then some [0x63, 0x0A]
      else none,
    malloc_stats := some (fun _ =>
      { filename := List.replicate MAX_FILENAME_LEN 0, lines := 7, words := 8, chars := 9 }),
    malloc_threads := true,
    thread_created := fun _ => true }

/-- A machine on which no path opens, both allocations succeed, and the block
`malloc` returns is zero-filled. -/
def zeroMachine : Machine :=
  { fs := fun _ => none,
    malloc_stats := some (fun _ =>
      { filename := List.replicate MAX_FILENAME_LEN 0, lines := 0, words := 0, chars := 0 }),
    malloc_threads := true,
    thread_created := fun _ => true }

/-- A machine with one file, "h", holding "hello world\n", on which both allocations
succeed and the block `malloc` returns is zero-filled. -/
def helloMachine : Machine :=
  { fs := fun p =>
      if p = [0x68] then
        some [0x68, 0x65, 0x6C, 0x6C, 0x6F, 0x20, 0x77, 0x6F, 0x72, 0x6C, 0x64, 0x0A]
      else none,
    malloc_stats := some (fun _ =>
      { filename := List.replicate MAX_FILENAME_LEN 0, lines := 0, words := 0, chars := 0 }),
    malloc_threads := true,
    thread_created := fun _ => true }

/-- The array `field` holds a NUL-terminated copy of the string `arg`: the bytes of
`arg`, then a NUL, then whatever fills the rest of the array. -/
def holdsCString (field arg : List Byte) : Prop :=
  ∃ pad : List Byte, field = arg ++ 0 :: pad

/-- A block as `malloc` may return it: slot 0 holds the stale counters 7, 8, 9 and
every other slot is zero-filled. -/
def unevenMem : Nat → file_stats_t := fun k =>
  if k = 0 then
    { filename := List.replicate MAX_FILENAME_LEN 0, lines := 7, words := 8, chars := 9 }
  else
    { filename := List.replicate MAX_FILENAME_LEN 0, lines := 0, words := 0, chars := 0 }

/-- A machine with one file, "a", holding "a b\n"; both allocations succeed and the
first one returns the block `unevenMem`. -/
def unevenMachine : Machine :=
  { fs := fun p => if p = [0x61] then some [0x61, 0x20, 0x62, 0x0A] else none,
    malloc_stats := some unevenMem,
    malloc_threads := true,
    thread_created := fun _ => true }

/-- Slot `i - 1` of the array once the threads have finished: `argv[i]` has been
copied into it, and `process_file` has run on it when its thread was created. -/
def slot_after (m : Machine) (file_stats : Nat → file_stats_t) (argv : List (List Byte))
    (i : Nat) : file_stats_t :=
  pthread_create (m.thread_created (i - 1)) m.fs
    { file_stats (i - 1) with filename := strncpy (argv.getD i []) MAX_FILENAME_LEN }

/-- The function `fgetc` on a stream whose reads fail, such as a directory that
`fopen` has opened: the call returns `EOF` and sets the error indicator, which the
program never tests; the bytes of the stream and its end-of-file indicator are left
as they are. -/
def fgetc_failing (fp : FILE) : Int × FILE := (EOF, fp)

/-- One pass of the loop of `process_file` (lines 41 to 57), with `read` for the
calls of `fgetc`: from the current character, the stream and the slot before the
pass to the three after it. -/
def scan_pass (read : FILE → Int × FILE) (st : Int × FILE × file_stats_t) :
    Int × FILE × file_stats_t :=
  -- next_ch = fgetc(fp); ungetc(next_ch, fp);
  let next_ch := toChar (read st.2.1).1
  let fp1 := ungetc next_ch (read st.2.1).2
  let stats1 := count_step st.1 next_ch (feof fp1) st.2.2
  -- ch = fgetc(fp);
  (toChar (read fp1).1, (read fp1).2, stats1)

/-- The current character, the stream and the slot after `n` passes of the loop. -/
def scan_passes (read : FILE → Int × FILE) : Nat → Int × FILE × file_stats_t →
    Int × FILE × file_stats_t
  | 0, st => st
  | n + 1, st => scan_passes read n (scan_pass read st)

/-- A file of 2^30 spaces. -/
def bigSpaces : List Byte := List.replicate 1073741824 0x20

/-- A machine on which every path opens and holds `bigSpaces`; both allocations
succeed, every thread is created and the block `malloc` returns is zero-filled. -/
def bigMachine : Machine :=
  { fs := fun _ => some bigSpaces,
    malloc_stats := some (fun _ =>
      { filename := List.replicate MAX_FILENAME_LEN 0, lines := 0, words := 0, chars := 0 }),
    malloc_threads := true,
    thread_created := fun _ => true }

/-- A path of exactly 256 bytes: "./" followed by 254 bytes 'a'. -/
def longName : List Byte := [0x2E, 0x2F] ++ List.replicate 254 0x61

/-- A path of 257 bytes: "./" followed by 255 bytes 'a'. Its first 256 bytes are
`longName`. -/
def longerName : List Byte := [0x2E, 0x2F] ++ List.replicate 255 0x61

/-- A machine whose only file has the path `longerName` and holds "c\n"; both
allocations succeed, every thread is created and the block `malloc` returns is
zero-filled. -/
def longerNameMachine : Machine :=
  { fs := fun p => if p = longerName then some [0x63, 0x0A] else none,
    malloc_stats := some (fun _ =>
      { filename := List.replicate MAX_FILENAME_LEN 0, lines := 0, words := 0, chars := 0 }),
    malloc_threads := true,
    thread_created := fun _ => true }

/-- A machine whose only file has the path `longName` and holds "c\n"; both
allocations succeed, every thread is created and the block `malloc` returns is
zero-filled. -/
def longNameMachine : Machine :=
  { fs := fun p => if p = longName then some [0x63, 0x0A] else none,
    malloc_stats := some (fun _ =>
      { filename := List.replicate MAX_FILENAME_LEN 0, lines := 0, words := 0, chars := 0 }),
    malloc_threads := true,
    thread_created := fun _ => true }

/-- A machine like `twoFileMachine` on which no `pthread_create` call succeeds. -/
def noThreadMachine : Machine :=
  { fs := fun p =>
      if p = [0x61] then some [0x61, 0x20, 0x62, 0x0A]
      else if p = [0x62] then some [0x63, 0x0A]
      else none,
    malloc_stats := some (fun _ =>
      { filename := List.replicate MAX_FILENAME_LEN 0, lines := 7, words := 8, chars := 9 }),
    malloc_threads := true,
    thread_created := fun _ => false }

/-! ## Theorems -/

theorem toUChar_toChar (b : Byte) : toUChar (toChar (b.val : Int)) = b := by
  apply Fin.ext
  have := b.isLt
  simp only [toUChar, toChar]
  omega

theorem scan_loop_eof (ch : Int) (buf : List Byte) (s : file_stats_t) :
    scan_loop ch { buf := buf, eof := true } s = s := by
  rw [scan_loop]; simp [feof]

theorem count_step_eq (ch next_ch : Int) (atEof : Bool) (s : file_stats_t) :
    count_step ch next_ch atEof s = s.add (bump ch (!isspace ch && (isspace next_ch || atEof))) := by
  unfold count_step
  generalize (!isspace ch && (isspace next_ch || atEof)) = c
  cases s
  cases c <;> by_cases h1 : ch = 10 <;> simp [bump, file_stats_t.add, h1]

theorem add_add (s : file_stats_t) (t u : Int × Int × Int) :
    (s.add t).add u = s.add (addT t u) := by
  simp [file_stats_t.add, addT, add_assoc]

theorem scan_loop_nil (ch : Int) (s : file_stats_t) :
    scan_loop ch { buf := [], eof := false } s = s.add (bump ch (!isspace ch)) := by
  rw [scan_loop]
  simp [feof, fgetc, ungetc, toChar, EOF, count_step_eq, scan_loop_eof]

theorem scan_loop_drop_last (ch : Int) (b : Byte) (s : file_stats_t)
    (hb : toChar (b.val : Int) = EOF) :
    scan_loop ch { buf := [b], eof := false } s = s.add (bump ch false) := by
  rw [scan_loop]
  simp [feof, fgetc, ungetc, hb, count_step_eq, scan_loop_eof]
  simp [EOF, isspace]

theorem scan_loop_drop (ch : Int) (b c : Byte) (rest : List Byte) (s : file_stats_t)
    (hb : toChar (b.val : Int) = EOF) :
    scan_loop ch { buf := b :: c :: rest, eof := false } s
      = scan_loop (toChar (c.val : Int)) { buf := rest, eof := false } (s.add (bump ch false)) := by
  rw [scan_loop]
  simp [feof, fgetc, ungetc, hb, count_step_eq]
  simp [EOF, isspace]

theorem scan_loop_keep (ch : Int) (b : Byte) (rest : List Byte) (s : file_stats_t)
    (hb : ¬ toChar (b.val : Int) = EOF) :
    scan_loop ch { buf := b :: rest, eof := false } s
      = scan_loop (toChar (b.val : Int)) { buf := rest, eof := false }
          (s.add (bump ch (!isspace ch && isspace (toChar (b.val : Int))))) := by
  rw [scan_loop]
  simp [feof, fgetc, ungetc, hb, count_step_eq, toUChar_toChar]

theorem tally_keep (ch : Int) (b : Byte) (rest : List Byte)
    (hb : ¬ toChar (b.val : Int) = EOF) :
    tally ch (b :: rest)
      = addT (bump ch (!isspace ch && isspace (toChar (b.val : Int))))
          (tally (toChar (b.val : Int)) rest) := by
  cases rest <;> simp [tally, hb]

theorem scan_loop_eq_tally (n : Nat) : ∀ (ch : Int) (buf : List Byte) (s : file_stats_t),
    buf.length ≤ n → scan_loop ch { buf := buf, eof := false } s = s.add (tally ch buf) := by
  induction n using Nat.strong_induction_on with
  | _ n ih =>
    intro ch buf s hn
    cases buf with
    | nil => rw [scan_loop_nil, tally]
    | cons b rest =>
      by_cases hb : toChar (b.val : Int) = EOF
      · cases rest with
        | nil => rw [scan_loop_drop_last ch b s hb]; simp [tally, hb]
        | cons c rest2 =>
          have hlt : rest2.length < n := by simp at hn; omega
          rw [scan_loop_drop ch b c rest2 s hb, ih rest2.length hlt _ rest2 _ le_rfl, add_add]
          simp [tally, hb]
      · have hlt : rest.length < n := by simp at hn; omega
        rw [scan_loop_keep ch b rest s hb, ih rest.length hlt _ rest _ le_rfl, add_add]
        rw [tally_keep ch b rest hb]

/-! ### `char` values of bytes -/

theorem toChar_eq_newline (b : Byte) : toChar (b.val : Int) = 10 ↔ b = 10 := by
  have := b.isLt
  constructor
  · intro h
    apply Fin.ext
    simp only [toChar] at h
    show b.val = 10
    omega
  · rintro rfl
    decide

theorem toChar_eq_EOF (b : Byte) : toChar (b.val : Int) = EOF ↔ b = 255 := by
  have := b.isLt
  constructor
  · intro h
    apply Fin.ext
    simp only [toChar, EOF] at h
    show b.val = 255
    omega
  · rintro rfl
    decide

theorem isspace_toChar (b : Byte) : isspace (toChar (b.val : Int)) = isWhitespace b := by
  rcases b with ⟨n, hn⟩
  rw [Bool.eq_iff_iff]
  simp only [isspace, isWhitespace, toChar, Bool.or_eq_true, Bool.and_eq_true, beq_iff_eq,
    decide_eq_true_eq, Fin.ext_iff]
  show _ ↔ (((((n = 32 ∨ n = 9) ∨ n = 10) ∨ n = 11) ∨ n = 12) ∨ n = 13)
  omega

/-! ### The scanner in closed form -/

theorem scan_stream_eq (file : List Byte) (s : file_stats_t) :
    scan_stream { buf := file, eof := false } s
      = ({ s with lines := 0, words := 0, chars := 0 } : file_stats_t).add (scanCounts file) := by
  cases file with
  | nil => simp [scan_stream, fgetc, scan_loop_eof, scanCounts, file_stats_t.add]
  | cons b rest =>
    simp only [scan_stream, fgetc, scanCounts]
    exact scan_loop_eq_tally rest.length _ rest _ le_rfl

theorem process_file_of_open (fs : FileSystem) (s : file_stats_t) (file : List Byte)
    (h : fopen fs s.filename = some { buf := file, eof := false }) :
    process_file fs s
      = ({ s with lines := 0, words := 0, chars := 0 } : file_stats_t).add (scanCounts file) := by
  simp only [process_file, h, scan_stream_eq]

theorem process_file_counts (fs : FileSystem) (s : file_stats_t) (file : List Byte)
    (h : fopen fs s.filename = some { buf := file, eof := false }) :
    (process_file fs s).counts = scanCounts file := by
  rw [process_file_of_open fs s file h]
  simp [file_stats_t.counts, file_stats_t.add]

theorem process_file_words (fs : FileSystem) (s : file_stats_t) (file : List Byte)
    (h : fopen fs s.filename = some { buf := file, eof := false }) :
    (process_file fs s).words = (scanCounts file).2.1 :=
  congrArg (fun t : Int × Int × Int => t.2.1) (process_file_counts fs s file h)

theorem process_file_chars (fs : FileSystem) (s : file_stats_t) (file : List Byte)
    (h : fopen fs s.filename = some { buf := file, eof := false }) :
    (process_file fs s).chars = (scanCounts file).2.2 :=
  congrArg (fun t : Int × Int × Int => t.2.2) (process_file_counts fs s file h)

theorem count_newline_cons (b : Byte) (rest : List Byte) :
    ((b :: rest).count 10 : Int) = (if toChar (b.val : Int) = 10 then 1 else 0) + (rest.count 10 : Int) := by
  by_cases h : b = 10
  · have h2 : toChar (b.val : Int) = 10 := (toChar_eq_newline b).2 h
    rw [if_pos h2, h, List.count_cons_self]
    push_cast
    ring
  · have h2 : ¬ toChar (b.val : Int) = 10 := fun hc => h ((toChar_eq_newline b).1 hc)
    rw [if_neg h2, List.count_cons_of_ne (Ne.symm h)]
    simp

theorem tally_lines (n : Nat) : ∀ (ch : Int) (buf : List Byte), buf.length ≤ n →
    (tally ch buf).1 = (if ch = 10 then 1 else 0) + (buf.count 10 : Int) := by
  induction n using Nat.strong_induction_on with
  | _ n ih =>
    intro ch buf hn
    cases buf with
    | nil => simp [tally, bump]
    | cons b rest =>
      by_cases hb : toChar (b.val : Int) = EOF
      · have hE : ¬ EOF = 10 := by decide
        cases rest with
        | nil => rw [count_newline_cons]; simp [tally, hb, bump, hE]
        | cons c rest2 =>
          have hlt : rest2.length < n := by simp at hn; omega
          rw [count_newline_cons, count_newline_cons]
          simp only [tally, hb, if_true, addT, bump, ih rest2.length hlt _ rest2 le_rfl, hE,
            if_false]
          ring
      · have hlt : rest.length < n := by simp at hn; omega
        rw [tally_keep ch b rest hb, count_newline_cons]
        simp only [addT, bump, ih rest.length hlt _ rest le_rfl]

theorem scanCounts_lines (file : List Byte) : (scanCounts file).1 = (newlineCount file : Int) := by
  cases file with
  | nil => simp [scanCounts, newlineCount]
  | cons b rest =>
    simp only [scanCounts, newlineCount]
    rw [tally_lines rest.length _ rest le_rfl, count_newline_cons]

/-! ### Words and characters on files whose lookahead never meets 0xFF -/

theorem wordRunCount_nil : wordRunCount [] = 0 := rfl

theorem wordEndAt_succ (b : Byte) (rest : List Byte) (i : Nat) :
    wordEndAt (b :: rest) (i + 1) = wordEndAt rest i := by
  simp [wordEndAt]

theorem wordRunCount_cons (b : Byte) (rest : List Byte) :
    wordRunCount (b :: rest) = (if wordEndAt (b :: rest) 0 = true then 1 else 0) + wordRunCount rest := by
  unfold wordRunCount
  rw [List.length_cons, List.range_succ_eq_map, List.countP_cons, List.countP_map]
  have : (wordEndAt (b :: rest) ∘ Nat.succ) = wordEndAt rest := by
    funext i
    exact wordEndAt_succ b rest i
  rw [this]
  omega

theorem wordEndAt_zero (b : Byte) (rest : List Byte) :
    wordEndAt (b :: rest) 0
      = (!isWhitespace b && (match rest with
                             | [] => true
                             | c :: _ => isWhitespace c)) := by
  cases rest <;> simp [wordEndAt]

theorem tally_words_chars (n : Nat) : ∀ (b : Byte) (buf : List Byte), buf.length ≤ n →
    (∀ x ∈ buf, x ≠ 255) →
    (tally (toChar (b.val : Int)) buf).2.1 = (wordRunCount (b :: buf) : Int) ∧
    (tally (toChar (b.val : Int)) buf).2.2 = ((b :: buf).length : Int) := by
  induction n with
  | zero =>
    intro b buf hn _
    have : buf = [] := List.length_eq_zero.mp (Nat.le_zero.mp hn)
    subst this
    rw [wordRunCount_cons, wordEndAt_zero]
    cases hw : isWhitespace b <;> simp [tally, bump, isspace_toChar, hw, wordRunCount_nil]
  | succ n ih =>
    intro b buf hn hff
    cases buf with
    | nil =>
      rw [wordRunCount_cons, wordEndAt_zero]
      cases hw : isWhitespace b <;> simp [tally, bump, isspace_toChar, hw, wordRunCount_nil]
    | cons c rest =>
      have hc : ¬ toChar (c.val : Int) = EOF := fun h =>
        hff c (List.mem_cons_self c rest) ((toChar_eq_EOF c).1 h)
      have hlen : rest.length ≤ n := by simp at hn; omega
      obtain ⟨hw, hch⟩ := ih c rest hlen (fun x hx => hff x (List.mem_cons_of_mem c hx))
      rw [tally_keep _ c rest hc, wordRunCount_cons b (c :: rest), wordEndAt_zero]
      simp only [addT, bump, hw, hch, isspace_toChar]
      constructor
      · rcases Bool.eq_false_or_eq_true (isWhitespace b) with hwb | hwb <;>
          rcases Bool.eq_false_or_eq_true (isWhitespace c) with hwc | hwc <;>
          simp [hwb, hwc]
      · simp [List.length_cons]; ring

theorem scanCounts_words_chars (file : List Byte) (hff : ∀ x ∈ file.tail, x ≠ 255) :
    (scanCounts file).2.1 = (wordRunCount file : Int) ∧
    (scanCounts file).2.2 = (file.length : Int) := by
  cases file with
  | nil => simp [scanCounts, wordRunCount_nil]
  | cons b rest => exact tally_words_chars rest.length b rest le_rfl hff

theorem wordRunCount_whitespace (file : List Byte) (hws : ∀ b ∈ file, isWhitespace b = true) :
    wordRunCount file = 0 := by
  unfold wordRunCount
  rw [List.countP_eq_zero]
  intro i _
  unfold wordEndAt
  cases hg : file.get? i with
  | none => simp
  | some b =>
    have hb : b ∈ file := List.get?_mem hg
    simp [hws b hb]

/-! ### Range of the counters -/

theorem bump_bounds (ch : Int) (c : Bool) (hc : c = true → isspace ch = false) :
    0 ≤ (bump ch c).1 ∧ 0 ≤ (bump ch c).2.1 ∧
    (bump ch c).1 + (bump ch c).2.1 ≤ (bump ch c).2.2 ∧ (bump ch c).2.2 = 1 := by
  unfold bump
  by_cases h10 : ch = 10
  · have hsp : isspace ch = true := by rw [h10]; decide
    have hcf : c = false := by
      cases c with
      | false => rfl
      | true => rw [hc rfl] at hsp; exact absurd hsp (by decide)
    simp [h10, hcf]
  · cases c <;> simp [h10]

theorem tally_bounds (n : Nat) : ∀ (ch : Int) (buf : List Byte), buf.length ≤ n →
    0 ≤ (tally ch buf).1 ∧ 0 ≤ (tally ch buf).2.1 ∧
    (tally ch buf).1 + (tally ch buf).2.1 ≤ (tally ch buf).2.2 ∧
    (tally ch buf).2.2 ≤ (buf.length : Int) + 1 := by
  induction n using Nat.strong_induction_on with
  | _ n ih =>
    intro ch buf hn
    cases buf with
    | nil =>
      obtain ⟨h1, h2, h3, h4⟩ := bump_bounds ch (!isspace ch) (by simp)
      simp only [tally, List.length_nil]
      omega
    | cons b rest =>
      by_cases hb : toChar (b.val : Int) = EOF
      · obtain ⟨h1, h2, h3, h4⟩ := bump_bounds ch false (by simp)
        cases rest with
        | nil =>
          simp only [tally, hb, if_true, List.length_cons, List.length_nil]
          push_cast
          omega
        | cons c rest2 =>
          have hlt : rest2.length < n := by simp at hn; omega
          obtain ⟨g1, g2, g3, g4⟩ := ih rest2.length hlt (toChar (c.val : Int)) rest2 le_rfl
          simp only [tally, hb, if_true, addT, List.length_cons]
          push_cast
          omega
      · have hlt : rest.length < n := by simp at hn; omega
        obtain ⟨g1, g2, g3, g4⟩ := ih rest.length hlt (toChar (b.val : Int)) rest le_rfl
        obtain ⟨h1, h2, h3, h4⟩ :=
          bump_bounds ch (!isspace ch && isspace (toChar (b.val : Int))) (by simp; tauto)
        rw [tally_keep ch b rest hb]
        simp only [addT, List.length_cons]
        push_cast
        omega

/-- The counters of a scan are not negative, lines and words together do not exceed
the characters, and the characters do not exceed the length of the file: on a file
shorter than 2^31 bytes every counter stays in the range of a 32-bit `int`. -/
theorem scanCounts_bounds (file : List Byte) :
    0 ≤ (scanCounts file).1 ∧ 0 ≤ (scanCounts file).2.1 ∧
    (scanCounts file).1 + (scanCounts file).2.1 ≤ (scanCounts file).2.2 ∧
    (scanCounts file).2.2 ≤ (file.length : Int) := by
  cases file with
  | nil => simp [scanCounts]
  | cons b rest =>
    obtain ⟨h1, h2, h3, h4⟩ := tally_bounds rest.length (toChar (b.val : Int)) rest le_rfl
    simp only [scanCounts, List.length_cons]
    push_cast
    exact ⟨h1, h2, h3, h4⟩

/-! ### The dispatcher in closed form -/

theorem scanner_eq (file : List Byte) : scanner file = scanCounts file := by
  simp [scanner, scan_stream_eq, file_stats_t.counts, file_stats_t.add]

theorem wrap32_of_range (v : Int) (h0 : 0 ≤ v) (h1 : v < 2147483648) : wrap32 v = v := by
  unfold wrap32
  omega

theorem wrap32_idem (v : Int) : wrap32 (wrap32 v) = wrap32 v := by
  unfold wrap32
  omega

theorem wrap32_add_left (a b : Int) : wrap32 (wrap32 a + b) = wrap32 (a + b) := by
  unfold wrap32
  omega

theorem run_threads_fold (m : Machine) (argv : List (List Byte)) (n : Nat) :
    ∀ (s : Nat) (arr : Nat → file_stats_t) (k : Nat), 1 ≤ s →
      (List.range' s n).foldl
        (fun arr i =>
          Function.update arr (i - 1)
            (pthread_create (m.thread_created (i - 1)) m.fs { arr (i - 1) with
              filename := strncpy (argv.getD i []) MAX_FILENAME_LEN }))
        arr k
      = if s ≤ k + 1 ∧ k + 1 < s + n then slot_after m arr argv (k + 1) else arr k := by
  induction n with
  | zero =>
    intro s arr k _
    rw [if_neg (by omega)]
    rfl
  | succ n ih =>
    intro s arr k hs
    rw [List.range'_succ, List.foldl_cons, ih (s + 1) _ k (by omega)]
    by_cases h1 : s + 1 ≤ k + 1 ∧ k + 1 < s + 1 + n
    · have h2 : s ≤ k + 1 ∧ k + 1 < s + (n + 1) := by omega
      have h3 : k ≠ s - 1 := by omega
      have h4 : k + 1 - 1 ≠ s - 1 := by omega
      simp only [h1, h2, and_self, if_true, slot_after, Function.update_noteq h4]
    · by_cases h5 : k + 1 = s
      · have h2 : s ≤ k + 1 ∧ k + 1 < s + (n + 1) := by omega
        have h6 : k = s - 1 := by omega
        simp only [h1, h2, and_self, if_true, if_false, slot_after]
        subst h6
        have h7 : s - 1 + 1 = s := by omega
        simp [h7]
      · have h2 : ¬ (s ≤ k + 1 ∧ k + 1 < s + (n + 1)) := by omega
        have h3 : k ≠ s - 1 := by omega
        simp only [h1, h2, if_false, Function.update_noteq h3]

theorem sum_stats_fold (arr : Nat → file_stats_t) (l : List Nat) :
    ∀ (t : Int × Int × Int), wrap32 t.1 = t.1 → wrap32 t.2.1 = t.2.1 → wrap32 t.2.2 = t.2.2 →
      l.foldl
        (fun t i =>
          (wrap32 (t.1 + (arr (i - 1)).lines), wrap32 (t.2.1 + (arr (i - 1)).words),
           wrap32 (t.2.2 + (arr (i - 1)).chars)))
        t
      = (wrap32 (t.1 + (l.map (fun i => (arr (i - 1)).lines)).sum),
         wrap32 (t.2.1 + (l.map (fun i => (arr (i - 1)).words)).sum),
         wrap32 (t.2.2 + (l.map (fun i => (arr (i - 1)).chars)).sum)) := by
  induction l with
  | nil =>
    intro t h1 h2 h3
    simp [h1, h2, h3]
  | cons i rest ih =>
    intro t _ _ _
    rw [List.foldl_cons, ih _ (wrap32_idem _) (wrap32_idem _) (wrap32_idem _)]
    simp only [List.map_cons, List.sum_cons, wrap32_add_left, add_assoc]

/-- The totals `main` passes to `printf`: the sums, over the slots 0 to `argc - 2`, of
the counters each slot holds once the threads have finished, as 32-bit values. -/
theorem sum_stats_run_threads (m : Machine) (mem : Nat → file_stats_t)
    (argv : List (List Byte)) :
    sum_stats argv.length (run_threads m argv mem)
      = (wrap32 ((List.range' 1 (argv.length - 1)).map
            (fun i => (slot_after m mem argv i).lines)).sum,
         wrap32 ((List.range' 1 (argv.length - 1)).map
            (fun i => (slot_after m mem argv i).words)).sum,
         wrap32 ((List.range' 1 (argv.length - 1)).map
            (fun i => (slot_after m mem argv i).chars)).sum) := by
  have key : ∀ i ∈ List.range' 1 (argv.length - 1),
      run_threads m argv mem (i - 1) = slot_after m mem argv i := by
    intro i hi
    rw [List.mem_range'_1] at hi
    unfold run_threads
    rw [run_threads_fold m argv (argv.length - 1) 1 mem (i - 1) le_rfl]
    have h1 : 1 ≤ i - 1 + 1 ∧ i - 1 + 1 < 1 + (argv.length - 1) := by omega
    have h2 : i - 1 + 1 = i := by omega
    rw [if_pos h1, h2]
  unfold sum_stats
  rw [sum_stats_fold _ _ _ (by decide) (by decide) (by decide)]
  simp only [zero_add]
  congr 1
  · exact congrArg (fun l => wrap32 (List.sum l))
      (List.map_congr_left (fun i hi => by rw [key i hi]))
  · congr 1
    · exact congrArg (fun l => wrap32 (List.sum l))
        (List.map_congr_left (fun i hi => by rw [key i hi]))
    · exact congrArg (fun l => wrap32 (List.sum l))
        (List.map_congr_left (fun i hi => by rw [key i hi]))

theorem main_of_args (m : Machine) (mem : Nat → file_stats_t) (argv : List (List Byte))
    (hargc : 2 ≤ argv.length) (hmem : m.malloc_stats = some mem)
    (hthr : m.malloc_threads = true) :
    main m argv =
      { status := 0,
        stdout := printf_totals
          (sum_stats argv.length (run_threads m argv mem)).1
          (sum_stats argv.length (run_threads m argv mem)).2.1
          (sum_stats argv.length (run_threads m argv mem)).2.2 } := by
  have h : ¬ argv.length < 2 := by omega
  simp [main, h, hmem, hthr]

theorem slot_after_of_created (m : Machine) (mem : Nat → file_stats_t)
    (argv : List (List Byte)) (i : Nat) (h : m.thread_created (i - 1) = true) :
    slot_after m mem argv i = thread_result m.fs mem argv i := by
  simp [slot_after, pthread_create, thread_result, h]

theorem thread_result_counts (fs : FileSystem) (mem : Nat → file_stats_t) (argv : List (List Byte))
    (i : Nat) (file : List Byte) (h : fs (path_of (argv.getD i [])) = some file) :
    (thread_result fs mem argv i).counts = scanner file := by
  rw [scanner_eq]
  apply process_file_counts
  simp only [fopen, path_of] at h ⊢
  rw [h]
  rfl

theorem thread_counts_of_open (fs : FileSystem) (mem : Nat → file_stats_t) (prog : List Byte)
    (args files : List (List Byte))
    (hopen : args.map (fun a => fs (path_of a)) = files.map some) :
    (List.range' 1 args.length).map (fun i => (thread_result fs mem (prog :: args) i).counts)
      = files.map scanner := by
  have hlen : args.length = files.length := by
    have := congrArg List.length hopen
    simpa using this
  apply List.ext_getElem
  · simp [hlen]
  · intro k h1 h2
    have hk : k < args.length := by simpa using h1
    have hk2 : k < files.length := by omega
    rw [List.getElem_map, List.getElem_map, List.getElem_range']
    apply thread_result_counts
    have hget : (prog :: args).getD (1 + 1 * k) [] = args[k] := by
      have : 1 + 1 * k = k + 1 := by omega
      rw [this, List.getD_cons_succ, List.getD_eq_getElem _ _ hk]
    rw [hget]
    have h3 := congrArg (fun l => l[k]?) hopen
    simp only [List.getElem?_map, List.getElem?_eq_getElem hk, List.getElem?_eq_getElem hk2,
      Option.map_some'] at h3
    exact Option.some.inj h3

theorem scanner_sums_bounds (files : List (List Byte)) :
    0 ≤ (files.map (fun f => (scanner f).1)).sum ∧
    0 ≤ (files.map (fun f => (scanner f).2.1)).sum ∧
    (files.map (fun f => (scanner f).1)).sum ≤ (files.map (fun f => (scanner f).2.2)).sum ∧
    (files.map (fun f => (scanner f).2.1)).sum ≤ (files.map (fun f => (scanner f).2.2)).sum := by
  induction files with
  | nil => simp
  | cons f rest ih =>
    obtain ⟨h1, h2, h3, _⟩ := scanCounts_bounds f
    obtain ⟨g1, g2, g3, g4⟩ := ih
    simp only [List.map_cons, List.sum_cons, scanner_eq] at *
    refine ⟨by omega, by omega, by omega, by omega⟩

/-- A run in which both allocations succeed, every thread is created and every
argument opens: `main` returns status zero and prints the sums of the scanner's
triples for the files, each sum taken as a 32-bit `int`. -/
theorem main_of_open (m : Machine) (mem : Nat → file_stats_t) (prog : List Byte)
    (args files : List (List Byte)) (hne : args ≠ [])
    (hmem : m.malloc_stats = some mem) (hthr : m.malloc_threads = true)
    (hcreated : ∀ k, k < args.length → m.thread_created k = true)
    (hopen : args.map (fun a => m.fs (path_of a)) = files.map some) :
    main m (prog :: args) =
      { status := 0,
        stdout := printf_totals
          (wrap32 (files.map (fun f => (scanner f).1)).sum)
          (wrap32 (files.map (fun f => (scanner f).2.1)).sum)
          (wrap32 (files.map (fun f => (scanner f).2.2)).sum) } := by
  have hargc : 2 ≤ (prog :: args).length := by
    cases args with
    | nil => exact absurd rfl hne
    | cons a rest => simp
  have hlen : (prog :: args).length - 1 = args.length := by simp
  have hslot : ∀ i ∈ List.range' 1 args.length,
      slot_after m mem (prog :: args) i = thread_result m.fs mem (prog :: args) i := by
    intro i hi
    rw [List.mem_range'_1] at hi
    exact slot_after_of_created m mem (prog :: args) i (hcreated (i - 1) (by omega))
  have hc := thread_counts_of_open m.fs mem prog args files hopen
  have h1 := congrArg (List.map (fun t : Int × Int × Int => t.1)) hc
  have h2 := congrArg (List.map (fun t : Int × Int × Int => t.2.1)) hc
  have h3 := congrArg (List.map (fun t : Int × Int × Int => t.2.2)) hc
  simp only [List.map_map] at h1 h2 h3
  have e1 : (List.range' 1 args.length).map (fun i => (slot_after m mem (prog :: args) i).lines)
      = files.map (fun f => (scanner f).1) := by
    exact (List.map_congr_left (fun i hi => by rw [hslot i hi]; rfl)).trans h1
  have e2 : (List.range' 1 args.length).map (fun i => (slot_after m mem (prog :: args) i).words)
      = files.map (fun f => (scanner f).2.1) := by
    exact (List.map_congr_left (fun i hi => by rw [hslot i hi]; rfl)).trans h2
  have e3 : (List.range' 1 args.length).map (fun i => (slot_after m mem (prog :: args) i).chars)
      = files.map (fun f => (scanner f).2.2) := by
    exact (List.map_congr_left (fun i hi => by rw [hslot i hi]; rfl)).trans h3
  rw [main_of_args m mem (prog :: args) hargc hmem hthr, sum_stats_run_threads, hlen, e1, e2, e3]

theorem scanner_bigSpaces : scanner bigSpaces = (0, 0, 1073741824) := by
  have hws : ∀ b ∈ bigSpaces, isWhitespace b = true := by
    intro b hb
    rw [List.eq_of_mem_replicate hb]
    decide
  have hff : ∀ x ∈ bigSpaces.tail, x ≠ 255 := by
    intro x hx
    rw [List.eq_of_mem_replicate (List.mem_of_mem_tail hx)]
    decide
  obtain ⟨hw, hc⟩ := scanCounts_words_chars bigSpaces hff
  rw [wordRunCount_whitespace bigSpaces hws] at hw
  have hl := scanCounts_lines bigSpaces
  have hn : newlineCount bigSpaces = 0 := by
    unfold newlineCount bigSpaces
    rw [List.count_replicate]
    decide
  have hlen : bigSpaces.length = 1073741824 := List.length_replicate _ _
  rw [hn] at hl
  rw [hlen] at hc
  rw [scanner_eq]
  ext
  · simpa using hl
  · simpa using hw
  · simpa using hc

theorem takeWhile_nonzero (arg : List Byte) (hz : ∀ b ∈ arg, b ≠ 0) :
    arg.takeWhile (fun b => b ≠ 0) = arg := by
  rw [List.takeWhile_eq_self_iff]
  intro b hb
  simpa using hz b hb

theorem strncpy_length (arg : List Byte) (n : Nat) : (strncpy arg n).length = n := by
  simp only [strncpy, List.length_take, List.length_append, List.length_replicate]
  omega

theorem strncpy_short (arg : List Byte) (n : Nat) (hz : ∀ b ∈ arg, b ≠ 0)
    (hlen : arg.length < n) :
    strncpy arg n = arg ++ 0 :: List.replicate (n - arg.length - 1) 0 := by
  have hrep : List.replicate (n - arg.length) (0 : Byte)
      = 0 :: List.replicate (n - arg.length - 1) 0 := by
    have : n - arg.length = (n - arg.length - 1) + 1 := by omega
    rw [this, List.replicate_succ]
    simp
  simp only [strncpy, takeWhile_nonzero arg hz]
  rw [List.take_of_length_le (by simp; omega), hrep]

theorem strncpy_long (arg : List Byte) (n : Nat) (hz : ∀ b ∈ arg, b ≠ 0)
    (hlen : n ≤ arg.length) :
    strncpy arg n = arg.take n := by
  simp only [strncpy, takeWhile_nonzero arg hz]
  rw [List.take_append_of_le_length hlen]

theorem path_of_short (arg : List Byte) (hz : ∀ b ∈ arg, b ≠ 0)
    (hlen : arg.length < MAX_FILENAME_LEN) : path_of arg = arg := by
  unfold path_of
  rw [strncpy_short arg MAX_FILENAME_LEN hz hlen,
    List.takeWhile_append_of_pos (by intro b hb; simpa using hz b hb)]
  simp

theorem path_of_long (arg : List Byte) (hz : ∀ b ∈ arg, b ≠ 0)
    (hlen : MAX_FILENAME_LEN ≤ arg.length) : path_of arg = arg.take MAX_FILENAME_LEN := by
  unfold path_of
  rw [strncpy_long arg MAX_FILENAME_LEN hz hlen]
  exact takeWhile_nonzero _ (fun b hb => hz b (List.mem_of_mem_take hb))

theorem longName_length : longName.length = 256 := by
  unfold longName
  rw [List.length_append, List.length_replicate]
  rfl

theorem longerName_length : longerName.length = 257 := by
  unfold longerName
  rw [List.length_append, List.length_replicate]
  rfl

theorem longName_nonzero : ∀ b ∈ longName, b ≠ 0 := by
  intro b hb
  unfold longName at hb
  rcases List.mem_append.mp hb with h | h
  · simp only [List.mem_cons, List.mem_singleton, List.not_mem_nil, or_false] at h
    rcases h with rfl | rfl <;> decide
  · rw [List.eq_of_mem_replicate h]
    decide

theorem longerName_nonzero : ∀ b ∈ longerName, b ≠ 0 := by
  intro b hb
  unfold longerName at hb
  rcases List.mem_append.mp hb with h | h
  · simp only [List.mem_cons, List.mem_singleton, List.not_mem_nil, or_false] at h
    rcases h with rfl | rfl <;> decide
  · rw [List.eq_of_mem_replicate h]
    decide

theorem path_of_longName : path_of longName = longName := by
  rw [path_of_long longName longName_nonzero (by rw [longName_length]; decide)]
  exact List.take_of_length_le (by rw [longName_length]; decide)

theorem path_of_longerName_ne : path_of longerName ≠ longerName := by
  rw [path_of_long longerName longerName_nonzero (by rw [longerName_length]; decide)]
  intro h
  have hl := congrArg List.length h
  rw [List.length_take, longerName_length] at hl
  revert hl
  decide

theorem thread_result_of_closed (fs : FileSystem) (mem : Nat → file_stats_t)
    (argv : List (List Byte)) (i : Nat) (h : fs (path_of (argv.getD i [])) = none) :
    thread_result fs mem argv i
      = { mem (i - 1) with filename := strncpy (argv.getD i []) MAX_FILENAME_LEN } := by
  have hf : fopen fs (strncpy (argv.getD i []) MAX_FILENAME_LEN) = none := by
    simp only [path_of] at h
    simp only [fopen, h, Option.map_none']
  simp only [thread_result, process_file, hf]

theorem main_one_arg (m : Machine) (mem : Nat → file_stats_t) (prog a : List Byte)
    (hmem : m.malloc_stats = some mem) (hthr : m.malloc_threads = true) :
    main m [prog, a] =
      { status := 0,
        stdout := printf_totals
          (wrap32 (slot_after m mem [prog, a] 1).lines)
          (wrap32 (slot_after m mem [prog, a] 1).words)
          (wrap32 (slot_after m mem [prog, a] 1).chars) } := by
  rw [main_of_args m mem [prog, a] (by simp) hmem hthr, sum_stats_run_threads]
  simp [List.range']

/-! ### The output line -/

theorem digitChar_eq (d : Nat) (h : d < 10) : digitChar d = Nat.digitChar d := by
  interval_cases d <;> rfl

theorem digitChar_ne_newline (d : Nat) (h : d < 10) : digitChar d ≠ '\n' := by
  interval_cases d <;> decide

theorem utoa_eq_decimal (fuel : Nat) : ∀ n : Nat, n < fuel → utoa fuel n = decimal n := by
  induction fuel with
  | zero => intro n h; omega
  | succ fuel ih =>
    intro n h
    unfold utoa
    by_cases h10 : n < 10
    · rw [if_pos h10, digitChar_eq n h10]
      unfold decimal
      by_cases h0 : n = 0
      · subst h0; rfl
      · rw [if_neg h0, Nat.digits_of_lt 10 n h0 h10]
        rfl
    · rw [if_neg h10, ih (n / 10) (by omega), digitChar_eq (n % 10) (Nat.mod_lt n (by omega))]
      have hpos : 0 < n := by omega
      have hq : n / 10 ≠ 0 := by omega
      unfold decimal
      rw [if_neg hq, if_neg (by omega), Nat.digits_def' (by omega) hpos]
      simp

theorem utoa_no_newline (fuel : Nat) : ∀ n : Nat, ∀ c ∈ utoa fuel n, c ≠ '\n' := by
  induction fuel with
  | zero => intro n c hc; simp [utoa] at hc
  | succ fuel ih =>
    intro n c hc
    unfold utoa at hc
    by_cases h10 : n < 10
    · rw [if_pos h10] at hc
      rw [List.mem_singleton] at hc
      rw [hc]
      exact digitChar_ne_newline n h10
    · rw [if_neg h10, List.mem_append, List.mem_singleton] at hc
      rcases hc with hc | hc
      · exact ih (n / 10) c hc
      · rw [hc]
        exact digitChar_ne_newline (n % 10) (Nat.mod_lt n (by omega))

theorem fmt_d_no_newline (width : Nat) (v : Int) : ∀ c ∈ fmt_d width v, c ≠ '\n' := by
  intro c hc
  unfold fmt_d at hc
  simp only [List.mem_append, List.mem_replicate] at hc
  rcases hc with ⟨_, hc⟩ | hc | hc
  · rw [hc]; decide
  · split at hc
    · rw [List.mem_singleton] at hc
      rw [hc]; decide
    · simp at hc
  · exact utoa_no_newline _ _ c hc

theorem fmt_d_count_newline (width : Nat) (v : Int) : (fmt_d width v).count '\n' = 0 :=
  List.count_eq_zero.mpr (fun h => fmt_d_no_newline width v _ h rfl)

theorem fmt_d_of_nat (n : Nat) : fmt_d 4 (n : Int) = field4 n := by
  have h : ¬ ((n : Int) < 0) := by omega
  simp only [fmt_d, field4, if_neg h, List.nil_append, Int.natAbs_ofNat]
  rw [utoa_eq_decimal (n + 1) n (by omega)]

theorem printf_totals_of_nat (l w c : Nat) :
    printf_totals (l : Int) (w : Int) (c : Int) = totals_line l w c := by
  simp only [printf_totals, totals_line, fmt_d_of_nat]

/-! ## The scanner: claims -/

/-- C1 (the code departs from the claim): on the two-byte file 'a', 0xFF, which has
one maximal run of non-whitespace bytes, the scanner reports zero words: the
lookahead consumes the byte 0xFF, does not push it back, and the word test fails.
On the file "hello world\n" of the claim the scanner does report two words. -/
theorem words_miss_run_before_0xFF :
    wordRunCount [0x61, 0xFF] = 1 ∧
    (process_file (onlyFile [0x61, 0xFF]) sampleSlot).words = 0 ∧
    (process_file
      (onlyFile [0x68, 0x65, 0x6C, 0x6C, 0x6F, 0x20, 0x77, 0x6F, 0x72, 0x6C, 0x64, 0x0A])
      sampleSlot).words = 2 := by
  refine ⟨by decide, ?_, ?_⟩
  · rw [process_file_words (onlyFile [0x61, 0xFF]) sampleSlot [0x61, 0xFF] rfl]
    decide
  · rw [process_file_words
      (onlyFile [0x68, 0x65, 0x6C, 0x6C, 0x6F, 0x20, 0x77, 0x6F, 0x72, 0x6C, 0x64, 0x0A])
      sampleSlot [0x68, 0x65, 0x6C, 0x6C, 0x6F, 0x20, 0x77, 0x6F, 0x72, 0x6C, 0x64, 0x0A] rfl]
    decide

/-- C2 (the code departs from the claim): on the three-byte file 'a', 0xFF, 'b' the
scanner reports two characters: the byte 0xFF is consumed by the lookahead and never
becomes the current character. -/
theorem chars_skip_0xFF :
    ([0x61, 0xFF, 0x62] : List Byte).length = 3 ∧
    (process_file (onlyFile [0x61, 0xFF, 0x62]) sampleSlot).chars = 2 := by
  refine ⟨rfl, ?_⟩
  rw [process_file_chars (onlyFile [0x61, 0xFF, 0x62]) sampleSlot [0x61, 0xFF, 0x62] rfl]
  decide

/-- C10 (the code departs from the claim): the file 'a', 0xFF is not empty and its
last byte is not white space, yet the scanner reports zero words for it, and zero
words again when a newline is appended. -/
theorem final_word_lost_at_0xFF :
    isWhitespace (0xFF : Byte) = false ∧
    (process_file (onlyFile [0x61, 0xFF]) sampleSlot).words = 0 ∧
    (process_file (onlyFile ([0x61, 0xFF] ++ [0x0A])) sampleSlot).words = 0 := by
  refine ⟨by decide, ?_, ?_⟩
  · rw [process_file_words (onlyFile [0x61, 0xFF]) sampleSlot [0x61, 0xFF] rfl]
    decide
  · rw [process_file_words (onlyFile ([0x61, 0xFF] ++ [0x0A])) sampleSlot
      ([0x61, 0xFF] ++ [0x0A]) rfl]
    decide

/-! ## The dispatcher: claims -/

/-- C4 (the code departs from the claim): run on one path that does not open, with
the counters 7, 8, 9 left in the slot `malloc` returns, `main` exits with status zero
but prints those counters as the totals, not 0 0 0: `process_file` leaves the slot
untouched when `fopen` fails, and `main` never clears it. -/
theorem unopened_path_adds_stale_counters :
    main staleMachine [progName, [0x78]] = { status := 0, stdout := "   7    8    9\n" } := by
  decide

/-- C5 (the claim fails), at three runs on readable files with both allocations
successful. On two files of 2^30 spaces each, whose triples are (0, 0, 2^30), `main`
prints -2147483648 characters: the total is a 32-bit `int` and the second addition
wraps. On the files "a b\n" and "c\n" with no thread created, `main` prints the sums
14, 16, 18 of the counters left in the slots, not 2, 3, 6. On the file "c\n" named by
the 257-byte argument `longerName`, `main` prints 0, 0, 0: the field holds the first
256 bytes of the name only, which name no file. -/
theorem totals_differ_from_sums :
    ((scanner bigSpaces).2.2 + (scanner bigSpaces).2.2 = 2147483648 ∧
      main bigMachine [progName, [0x61], [0x62]]
        = { status := 0, stdout := "   0    0 -2147483648\n" }) ∧
    (noThreadMachine.fs [0x61] = some [0x61, 0x20, 0x62, 0x0A] ∧
      noThreadMachine.fs [0x62] = some [0x63, 0x0A] ∧
      main noThreadMachine [progName, [0x61], [0x62]]
        = { status := 0, stdout := "  14   16   18\n" }) ∧
    (longerNameMachine.fs longerName = some [0x63, 0x0A] ∧
      main longerNameMachine [progName, longerName]
        = { status := 0, stdout := "   0    0    0\n" }) := by
  refine ⟨⟨?_, ?_⟩, ⟨by decide, by decide, by decide⟩, ⟨?_, ?_⟩⟩
  · rw [scanner_bigSpaces]
    decide
  · rw [main_of_open bigMachine
      (fun _ => { filename := List.replicate MAX_FILENAME_LEN 0, lines := 0, words := 0, chars := 0 })
      progName [[0x61], [0x62]] [bigSpaces, bigSpaces] (by simp) rfl rfl (fun _ _ => rfl) rfl]
    simp only [List.map_cons, List.map_nil, List.sum_cons, List.sum_nil, scanner_bigSpaces]
    decide
  · simp only [longerNameMachine, if_true]
  · have hclosed : longerNameMachine.fs (path_of ([progName, longerName].getD 1 [])) = none := by
      have hget : [progName, longerName].getD 1 [] = longerName := rfl
      rw [hget]
      simp only [longerNameMachine, path_of_longerName_ne, if_false]
    rw [main_one_arg longerNameMachine
      (fun _ => { filename := List.replicate MAX_FILENAME_LEN 0, lines := 0, words := 0, chars := 0 })
      progName longerName rfl rfl,
      slot_after_of_created longerNameMachine _ [progName, longerName] 1 rfl,
      thread_result_of_closed longerNameMachine.fs _ [progName, longerName] 1 hclosed]
    decide

/-- C5 (amended): when both allocations succeed, every thread is created, every
argument of a non-empty argument list is shorter than `MAX_FILENAME_LEN` bytes and
names a file that opens, and the sum of the files' character counts is below 2^31,
`main` exits with status zero and prints the component-wise sums of the triples the
scanner produces for the files, in argument order. -/
theorem totals_are_sums_when_in_range (m : Machine) (mem : Nat → file_stats_t)
    (prog : List Byte) (args files : List (List Byte)) (hne : args ≠ [])
    (hmem : m.malloc_stats = some mem) (hthr : m.malloc_threads = true)
    (hcreated : ∀ k, k < args.length → m.thread_created k = true)
    (hcstr : ∀ a ∈ args, ∀ b ∈ a, b ≠ 0)
    (hshort : ∀ a ∈ args, a.length < MAX_FILENAME_LEN)
    (hopen : args.map m.fs = files.map some)
    (hrange : (files.map (fun f => (scanner f).2.2)).sum < 2147483648) :
    main m (prog :: args) =
      { status := 0,
        stdout := printf_totals
          ((files.map (fun f => (scanner f).1)).sum)
          ((files.map (fun f => (scanner f).2.1)).sum)
          ((files.map (fun f => (scanner f).2.2)).sum) } := by
  obtain ⟨h1, h2, h3, h4⟩ := scanner_sums_bounds files
  have hopen2 : args.map (fun a => m.fs (path_of a)) = files.map some := by
    rw [← hopen]
    exact List.map_congr_left (fun a ha => by rw [path_of_short a (hcstr a ha) (hshort a ha)])
  rw [main_of_open m mem prog args files hne hmem hthr hcreated hopen2,
    wrap32_of_range _ h1 (by omega), wrap32_of_range _ h2 (by omega),
    wrap32_of_range _ (by omega) hrange]

/-- C5 (amended), at the two files "a b\n" and "c\n": the totals printed are 2, 3
and 6. -/
theorem totals_are_sums_when_in_range_witness :
    main twoFileMachine [progName, [0x61], [0x62]]
      = { status := 0, stdout := "   2    3    6\n" } :=
  (totals_are_sums_when_in_range twoFileMachine
      (fun _ => { filename := List.replicate MAX_FILENAME_LEN 0, lines := 7, words := 8, chars := 9 })
      progName [[0x61], [0x62]] [[0x61, 0x20, 0x62, 0x0A], [0x63, 0x0A]]
      (by decide) rfl rfl (fun _ _ => rfl) (by simp) (by simp [MAX_FILENAME_LEN]) (by decide)
      (by simp only [scanner_eq]; decide)).trans
    (by simp only [scanner_eq]; decide)

/-- C6: with no file argument (`argc < 2`) `main` returns a non-zero status and
writes nothing to standard output. -/
theorem no_arguments_is_usage_error (m : Machine) (argv : List (List Byte))
    (hargc : argv.length < 2) :
    (main m argv).status ≠ 0 ∧ (main m argv).stdout = "" := by
  simp [main, hargc]

/-- C6, at the argument list that holds the program name only. -/
theorem no_arguments_is_usage_error_witness :
    [progName].length < 2 ∧
    (main twoFileMachine [progName]).status ≠ 0 ∧ (main twoFileMachine [progName]).stdout = "" :=
  ⟨by decide, no_arguments_is_usage_error twoFileMachine [progName] (by decide)⟩

/-- On the streams of `FileSystem`, which deliver their bytes and reach end of file:
with one or more file arguments and both allocations successful, `main` returns
status zero and writes exactly one line, whichever files open and whichever threads
are created. -/
theorem one_line_and_exit_zero (m : Machine) (mem : Nat → file_stats_t)
    (argv : List (List Byte)) (hargc : 2 ≤ argv.length)
    (hmem : m.malloc_stats = some mem) (hthr : m.malloc_threads = true) :
    (main m argv).status = 0 ∧
    (main m argv).stdout.data.count '\n' = 1 ∧
    (main m argv).stdout.data.getLast? = some '\n' := by
  rw [main_of_args m mem argv hargc hmem hthr]
  refine ⟨rfl, ?_, ?_⟩
  · simp only [printf_totals, List.count_append, fmt_d_count_newline]
    decide
  · simp only [printf_totals]
    exact List.getLast?_concat _

theorem scan_loop_pass (ch : Int) (fp : FILE) (stats : file_stats_t) :
    scan_loop ch fp stats
      = if feof fp = true then stats
        else scan_loop (scan_pass fgetc (ch, fp, stats)).1 (scan_pass fgetc (ch, fp, stats)).2.1
          (scan_pass fgetc (ch, fp, stats)).2.2 := by
  rw [scan_loop]
  by_cases h : feof fp = true
  · simp [h]
  · simp only [h, dite_false, if_false, scan_pass, Bool.false_eq_true]

theorem scan_passes_failing (n : Nat) : ∀ stats : file_stats_t,
    scan_passes fgetc_failing n (toChar EOF, { buf := [], eof := false }, stats)
      = (toChar EOF, { buf := [], eof := false }, { stats with chars := stats.chars + n }) := by
  induction n with
  | zero => intro stats; simp [scan_passes]
  | succ n ih =>
    intro stats
    have hstep : scan_pass fgetc_failing (toChar EOF, { buf := [], eof := false }, stats)
        = (toChar EOF, { buf := [], eof := false }, { stats with chars := stats.chars + 1 }) := by
      simp [scan_pass, fgetc_failing, ungetc, count_step, feof, toChar, EOF, isspace]
    rw [scan_passes, hstep, ih]
    simp only [Nat.cast_add, Nat.cast_one]
    congr 3
    ring

/-- C7 (the code departs from the claim): on a path that opens but whose reads fail
(a directory), the first `fgetc` returns `EOF` without setting the end-of-file
indicator, and after any number `n` of passes of the loop the indicator is still
clear, the stream is unchanged and the `chars` counter has grown by `n`: the test
`!feof(fp)` never fails, so `process_file` does not return, `main` stays in
`pthread_join`, writes no line and does not exit. -/
theorem read_error_loop_never_ends (stats : file_stats_t) (n : Nat) :
    feof (scan_passes fgetc_failing n
      (toChar (fgetc_failing { buf := [], eof := false }).1,
       (fgetc_failing { buf := [], eof := false }).2, stats)).2.1 = false ∧
    (scan_passes fgetc_failing n
      (toChar (fgetc_failing { buf := [], eof := false }).1,
       (fgetc_failing { buf := [], eof := false }).2, stats)).2.2.chars = stats.chars + n := by
  have h := scan_passes_failing n stats
  simp only [fgetc_failing]
  rw [h]
  exact ⟨rfl, rfl⟩

/-- C8: whenever `main` reaches `printf` with totals that are not negative, the text
it writes is the decimal rendering of the lines total, of the words total and of the
chars total, in that order, each padded on the left with spaces to four characters
when shorter and left whole when longer, with one space between fields and a newline
at the end. -/
theorem output_line_format (m : Machine) (mem : Nat → file_stats_t) (argv : List (List Byte))
    (l w c : Nat) (hargc : 2 ≤ argv.length)
    (hmem : m.malloc_stats = some mem) (hthr : m.malloc_threads = true)
    (htot : sum_stats argv.length (run_threads m argv mem) = ((l : Int), (w : Int), (c : Int))) :
    (main m argv).stdout = totals_line l w c := by
  rw [main_of_args m mem argv hargc hmem hthr, htot]
  exact printf_totals_of_nat l w c

/-- C8, at the totals (0, 0, 0), printed as "   0    0    0", and at the totals
(1, 2, 12) of a run on the file "hello world\n". -/
theorem output_line_format_witness :
    (main zeroMachine [progName, [0x78]]).stdout = "   0    0    0\n" ∧
    (main helloMachine [progName, [0x68]]).stdout = "   1    2   12\n" := by
  constructor
  · exact (output_line_format zeroMachine
      (fun _ => { filename := List.replicate MAX_FILENAME_LEN 0, lines := 0, words := 0, chars := 0 })
      [progName, [0x78]] 0 0 0 (by decide) rfl rfl (by decide)).trans
      (by simp [totals_line, field4, decimal])
  · have hc := thread_result_counts helloMachine.fs
      (fun _ => { filename := List.replicate MAX_FILENAME_LEN 0, lines := 0, words := 0, chars := 0 })
      [progName, [0x68]] 1
      [0x68, 0x65, 0x6C, 0x6C, 0x6F, 0x20, 0x77, 0x6F, 0x72, 0x6C, 0x64, 0x0A] (by decide)
    rw [scanner_eq] at hc
    have hv : scanCounts
        [0x68, 0x65, 0x6C, 0x6C, 0x6F, 0x20, 0x77, 0x6F, 0x72, 0x6C, 0x64, 0x0A]
        = (((1 : Nat) : Int), ((2 : Nat) : Int), ((12 : Nat) : Int)) := by decide
    rw [hv] at hc
    have hs := slot_after_of_created helloMachine
      (fun _ => { filename := List.replicate MAX_FILENAME_LEN 0, lines := 0, words := 0, chars := 0 })
      [progName, [0x68]] 1 rfl
    have htot : sum_stats [progName, [0x68]].length
        (run_threads helloMachine [progName, [0x68]]
          (fun _ => { filename := List.replicate MAX_FILENAME_LEN 0,
                      lines := 0, words := 0, chars := 0 }))
        = (((1 : Nat) : Int), ((2 : Nat) : Int), ((12 : Nat) : Int)) := by
      rw [sum_stats_run_threads]
      simp only [List.length_cons, List.length_nil, Nat.zero_add, Nat.add_one_sub_one,
        List.range', List.map_cons, List.map_nil, List.sum_cons, List.sum_nil, hs]
      simp only [file_stats_t.counts, Prod.mk.injEq] at hc
      simp only [hc.1, hc.2.1, hc.2.2]
      decide
    exact (output_line_format helloMachine
      (fun _ => { filename := List.replicate MAX_FILENAME_LEN 0, lines := 0, words := 0, chars := 0 })
      [progName, [0x68]] 1 2 12 (by decide) rfl rfl htot).trans
      (by norm_num [totals_line, field4, decimal, Nat.digitChar]; rfl)

/-! ### Word runs of a concatenation -/

theorem main_of_all_open (m : Machine) (mem : Nat → file_stats_t) (prog : List Byte)
    (args : List (List Byte)) (hne : args ≠ [])
    (hmem : m.malloc_stats = some mem) (hthr : m.malloc_threads = true)
    (hcreated : ∀ k, k < args.length → m.thread_created k = true)
    (hall : ∀ a ∈ args, (m.fs (path_of a)).isSome = true) :
    main m (prog :: args) =
      { status := 0,
        stdout := printf_totals
          (wrap32 (args.map (fun a => (scanner ((m.fs (path_of a)).getD [])).1)).sum)
          (wrap32 (args.map (fun a => (scanner ((m.fs (path_of a)).getD [])).2.1)).sum)
          (wrap32 (args.map (fun a => (scanner ((m.fs (path_of a)).getD [])).2.2)).sum) } := by
  have hopen : args.map (fun a => m.fs (path_of a))
      = (args.map (fun a => (m.fs (path_of a)).getD [])).map some := by
    rw [List.map_map]
    apply List.map_congr_left
    intro a ha
    obtain ⟨f, hf⟩ := Option.isSome_iff_exists.mp (hall a ha)
    simp [hf]
  rw [main_of_open m mem prog args _ hne hmem hthr hcreated hopen]
  simp only [List.map_map]
  rfl

/-- When every argument opens and every thread is created, the order of the
arguments does not change what `main` returns and prints. -/
theorem main_perm_of_all_open (m : Machine) (mem : Nat → file_stats_t) (prog : List Byte)
    (args args2 : List (List Byte)) (hperm : args.Perm args2) (hne : args ≠ [])
    (hmem : m.malloc_stats = some mem) (hthr : m.malloc_threads = true)
    (hcreated : ∀ k, k < args.length → m.thread_created k = true)
    (hall : ∀ a ∈ args, (m.fs (path_of a)).isSome = true) :
    main m (prog :: args) = main m (prog :: args2) := by
  have hne2 : args2 ≠ [] := fun h => hne (List.Perm.eq_nil (h ▸ hperm))
  have hall2 : ∀ a ∈ args2, (m.fs (path_of a)).isSome = true :=
    fun a ha => hall a (hperm.mem_iff.mpr ha)
  have hcreated2 : ∀ k, k < args2.length → m.thread_created k = true :=
    fun k hk => hcreated k (by rw [hperm.length_eq]; exact hk)
  rw [main_of_all_open m mem prog args hne hmem hthr hcreated hall,
    main_of_all_open m mem prog args2 hne2 hmem hthr hcreated2 hall2,
    (hperm.map _).sum_eq, (hperm.map _).sum_eq, (hperm.map _).sum_eq]

theorem main_two_args (m : Machine) (mem : Nat → file_stats_t) (prog a b : List Byte)
    (hmem : m.malloc_stats = some mem) (hthr : m.malloc_threads = true)
    (h0 : m.thread_created 0 = true) (h1 : m.thread_created 1 = true) :
    main m [prog, a, b] =
      { status := 0,
        stdout := printf_totals
          (wrap32 ((thread_result m.fs mem [prog, a, b] 1).counts.1
            + (thread_result m.fs mem [prog, a, b] 2).counts.1))
          (wrap32 ((thread_result m.fs mem [prog, a, b] 1).counts.2.1
            + (thread_result m.fs mem [prog, a, b] 2).counts.2.1))
          (wrap32 ((thread_result m.fs mem [prog, a, b] 1).counts.2.2
            + (thread_result m.fs mem [prog, a, b] 2).counts.2.2)) } := by
  have e1 := slot_after_of_created m mem [prog, a, b] 1 h0
  have e2 := slot_after_of_created m mem [prog, a, b] 2 h1
  rw [main_of_args m mem [prog, a, b] (by simp) hmem hthr, sum_stats_run_threads]
  simp [List.range', file_stats_t.counts, e1, e2]

/-! ### The lookahead and the file name field -/

theorem lookahead_restores (b : Byte) (rest : List Byte) (hb : b ≠ 255) :
    ungetc (toChar (fgetc { buf := b :: rest, eof := false }).1)
        (fgetc { buf := b :: rest, eof := false }).2
      = { buf := b :: rest, eof := false } := by
  have hc : ¬ toChar (b.val : Int) = EOF := fun h => hb ((toChar_eq_EOF b).1 h)
  simp [fgetc, ungetc, hc, toUChar_toChar]

theorem process_file_filename (fs : FileSystem) (s : file_stats_t) :
    (process_file fs s).filename = s.filename := by
  unfold process_file
  cases h : fopen fs s.filename with
  | none => rfl
  | some fp =>
    obtain ⟨file, hfile⟩ : ∃ file, fp = { buf := file, eof := false } := by
      unfold fopen at h
      cases hf : fs (List.takeWhile (fun b => b ≠ 0) s.filename) with
      | none => rw [hf] at h; simp at h
      | some bytes =>
        rw [hf] at h
        simp only [Option.map_some', Option.some.injEq] at h
        exact ⟨bytes, h.symm⟩
    subst hfile
    simp only [scan_stream_eq, file_stats_t.add]

/-! ## The scanner: further claims -/

/-- C11: for every byte `b`, the three-byte file 'a', `b`, 'a' is counted as two
words when `b` is one of the six bytes space, tab, newline, vertical tab, form feed,
carriage return, and as one word for every other value of `b`. -/
theorem separator_iff_whitespace (fs : FileSystem) (stats : file_stats_t) (b : Byte)
    (hopen : fopen fs stats.filename = some { buf := [0x61, b, 0x61], eof := false }) :
    (process_file fs stats).words = if isWhitespace b = true then 2 else 1 := by
  rw [process_file_words fs stats [0x61, b, 0x61] hopen]
  by_cases hb : b = 255
  · subst hb
    decide
  · have hff : ∀ x ∈ ([0x61, b, 0x61] : List Byte).tail, x ≠ 255 := by
      intro x hx
      simp only [List.tail_cons, List.mem_cons, List.mem_singleton, List.not_mem_nil,
        or_false] at hx
      rcases hx with rfl | rfl
      · exact hb
      · decide
    rw [(scanCounts_words_chars [0x61, b, 0x61] hff).1, wordRunCount_cons, wordRunCount_cons,
      wordRunCount_cons, wordRunCount_nil, wordEndAt_zero, wordEndAt_zero, wordEndAt_zero]
    have ha : isWhitespace (0x61 : Byte) = false := by decide
    rcases Bool.eq_false_or_eq_true (isWhitespace b) with hw | hw <;> simp [ha, hw]

/-- C11, at the separator tab (two words) and at the byte 0xFF (one word). -/
theorem separator_iff_whitespace_witness :
    (process_file (onlyFile [0x61, 0x09, 0x61]) sampleSlot).words = 2 ∧
    (process_file (onlyFile [0x61, 0xFF, 0x61]) sampleSlot).words = 1 :=
  ⟨(separator_iff_whitespace (onlyFile [0x61, 0x09, 0x61]) sampleSlot 0x09 rfl).trans
      (by decide),
   (separator_iff_whitespace (onlyFile [0x61, 0xFF, 0x61]) sampleSlot 0xFF rfl).trans
      (by decide)⟩

/-- C12 (the code departs from the claim): on a machine where slot 0 of the block
holds the stale counters 7, 8, 9 and slot 1 is zero-filled, the arguments "x" (does
not open) then "a" (holds "a b\n") give the totals 8, 10, 13, and the same two
arguments in the other order give 1, 2, 4: the slot of the path that does not open
is never cleared, and which slot that is depends on the order. -/
theorem totals_depend_on_order_when_open_fails :
    List.Perm [([0x78] : List Byte), [0x61]] [[0x61], [0x78]] ∧
    main unevenMachine [progName, [0x78], [0x61]]
      = { status := 0, stdout := "   8   10   13\n" } ∧
    main unevenMachine [progName, [0x61], [0x78]]
      = { status := 0, stdout := "   1    2    4\n" } := by
  have hs : scanCounts [0x61, 0x20, 0x62, 0x0A] = (1, 2, 4) := by decide
  refine ⟨List.Perm.swap _ _ _, ?_, ?_⟩
  · have h1 : (thread_result unevenMachine.fs unevenMem [progName, [0x78], [0x61]] 1).counts
        = (7, 8, 9) := by decide
    have h2 := thread_result_counts unevenMachine.fs unevenMem [progName, [0x78], [0x61]] 2
      [0x61, 0x20, 0x62, 0x0A] (by decide)
    rw [scanner_eq, hs] at h2
    rw [main_two_args unevenMachine unevenMem progName [0x78] [0x61] rfl rfl rfl rfl, h1, h2]
    decide
  · have h1 := thread_result_counts unevenMachine.fs unevenMem [progName, [0x61], [0x78]] 1
      [0x61, 0x20, 0x62, 0x0A] (by decide)
    have h2 : (thread_result unevenMachine.fs unevenMem [progName, [0x61], [0x78]] 2).counts
        = (0, 0, 0) := by decide
    rw [scanner_eq, hs] at h1
    rw [main_two_args unevenMachine unevenMem progName [0x61] [0x78] rfl rfl rfl rfl, h1, h2]
    decide

/-- C13 (the claim fails): run with the program name as its only argument, `main`
does not print the zero totals and does not succeed. -/
theorem no_arguments_prints_no_zero_totals :
    (main zeroMachine [progName]).stdout ≠ "   0    0    0\n" ∧
    (main zeroMachine [progName]).status ≠ 0 := by
  decide

/-- C13 (amended): with no file argument `main` reports no counts at all: it returns
status 1 and writes nothing, so what it writes is not the output line of any
totals. -/
theorem no_arguments_reports_nothing (m : Machine) (argv : List (List Byte))
    (hargc : argv.length < 2) :
    (main m argv).status = 1 ∧
    (main m argv).stdout = "" ∧
    ∀ l w c : Int, (main m argv).stdout ≠ printf_totals l w c := by
  have hm : main m argv = { status := 1, stdout := "" } := by simp [main, hargc]
  rw [hm]
  refine ⟨rfl, rfl, ?_⟩
  intro l w c h
  have hd := congrArg String.data h
  simp [printf_totals] at hd

/-- C13 (amended), at the argument list that holds the program name only. -/
theorem no_arguments_reports_nothing_witness :
    [progName].length < 2 ∧
    (main zeroMachine [progName]).status = 1 ∧
    (main zeroMachine [progName]).stdout = "" ∧
    ∀ l w c : Int, (main zeroMachine [progName]).stdout ≠ printf_totals l w c :=
  ⟨by decide, no_arguments_reports_nothing zeroMachine [progName] (by decide)⟩

/-- C15 (the code departs from the claim): with the bytes 0xFF, 'b' still unread,
the lookahead reads the byte 0xFF, stores -1 in `next_ch`, and leaves the stream
holding 'b' only, so the read that follows returns 'b' and the byte 0xFF is never the
current character; the file 'a', 0xFF, whose last byte is 0xFF, gets the counts
(0, 0, 1). -/
theorem lookahead_consumes_0xFF :
    (fgetc { buf := [0xFF, 0x62], eof := false }).1 = 255 ∧
    toChar (fgetc { buf := [0xFF, 0x62], eof := false }).1 = EOF ∧
    ungetc (toChar (fgetc { buf := [0xFF, 0x62], eof := false }).1)
        (fgetc { buf := [0xFF, 0x62], eof := false }).2
      = { buf := [0x62], eof := false } ∧
    (fgetc (ungetc (toChar (fgetc { buf := [0xFF, 0x62], eof := false }).1)
        (fgetc { buf := [0xFF, 0x62], eof := false }).2)).1 = 0x62 ∧
    (process_file (onlyFile [0x61, 0xFF]) sampleSlot).counts = (0, 0, 1) := by
  refine ⟨by decide, by decide, by decide, by decide, ?_⟩
  rw [process_file_counts (onlyFile [0x61, 0xFF]) sampleSlot [0x61, 0xFF] rfl]
  decide

/-- C19 (the claim fails): the argument `longName` has exactly 256 bytes, none of
them NUL, and the field `main` fills from it holds no NUL-terminated copy of it; yet
in a zero-filled slot, where the byte after the field is zero, the path
`process_file` opens is `longName` itself, and the file of that name is scanned and
counted. -/
theorem unterminated_name_is_opened :
    MAX_FILENAME_LEN ≤ longName.length ∧
    ¬ holdsCString (strncpy longName MAX_FILENAME_LEN) longName ∧
    path_of longName = longName ∧
    longNameMachine.fs longName = some [0x63, 0x0A] ∧
    main longNameMachine [progName, longName]
      = { status := 0, stdout := "   1    1    2\n" } := by
  have hopen : [longName].map (fun a => longNameMachine.fs (path_of a))
      = [[0x63, 0x0A]].map some := by
    simp only [List.map_cons, List.map_nil, path_of_longName, longNameMachine, if_true]
  refine ⟨by rw [longName_length]; decide, ?_, path_of_longName,
    by simp only [longNameMachine, if_true], ?_⟩
  · rintro ⟨pad, hpad⟩
    have hl := congrArg List.length hpad
    rw [strncpy_length, List.length_append, List.length_cons, longName_length] at hl
    revert hl
    simp [MAX_FILENAME_LEN]
  · rw [main_of_open longNameMachine
      (fun _ => { filename := List.replicate MAX_FILENAME_LEN 0, lines := 0, words := 0, chars := 0 })
      progName [longName] [[0x63, 0x0A]] (by simp) rfl rfl (fun _ _ => rfl) hopen]
    simp only [scanner_eq]
    decide

/-- C19 (amended): the file name `main` stores in a slot is `strncpy` of the argument
into the 256-byte field, and the thread leaves it as stored. For an argument without NUL
bytes the field holds a NUL-terminated copy of the argument exactly when the
argument is shorter than `MAX_FILENAME_LEN`; for an argument of `MAX_FILENAME_LEN`
bytes or more the field is the first `MAX_FILENAME_LEN` bytes of the argument and
holds no NUL. -/
theorem filename_field_copy (fs : FileSystem) (mem : Nat → file_stats_t)
    (argv : List (List Byte)) (i : Nat) (hz : ∀ b ∈ argv.getD i [], b ≠ 0) :
    (thread_result fs mem argv i).filename = strncpy (argv.getD i []) MAX_FILENAME_LEN ∧
    (strncpy (argv.getD i []) MAX_FILENAME_LEN).length = MAX_FILENAME_LEN ∧
    (holdsCString (strncpy (argv.getD i []) MAX_FILENAME_LEN) (argv.getD i [])
      ↔ (argv.getD i []).length < MAX_FILENAME_LEN) ∧
    (MAX_FILENAME_LEN ≤ (argv.getD i []).length →
      strncpy (argv.getD i []) MAX_FILENAME_LEN = (argv.getD i []).take MAX_FILENAME_LEN ∧
      (0 : Byte) ∉ strncpy (argv.getD i []) MAX_FILENAME_LEN) := by
  have hstored : (thread_result fs mem argv i).filename
      = strncpy (argv.getD i []) MAX_FILENAME_LEN := by
    simp only [thread_result, process_file_filename]
  refine ⟨hstored, ?_⟩
  clear hstored
  generalize argv.getD i [] = arg at hz ⊢
  refine ⟨strncpy_length arg MAX_FILENAME_LEN, ?_, ?_⟩
  · constructor
    · rintro ⟨pad, hpad⟩
      have hl := congrArg List.length hpad
      rw [strncpy_length] at hl
      simp only [List.length_append, List.length_cons] at hl
      omega
    · intro hlen
      exact ⟨_, strncpy_short arg MAX_FILENAME_LEN hz hlen⟩
  · intro hlen
    rw [strncpy_long arg MAX_FILENAME_LEN hz hlen]
    exact ⟨rfl, fun h0 => hz 0 (List.mem_of_mem_take h0) rfl⟩

/-- C19 (amended), at the argument "a" (the field holds the terminated copy) and at an
argument of 256 bytes 'a' (the field holds no terminated copy of it). -/
theorem filename_field_copy_witness :
    holdsCString (strncpy ([progName, [0x61]].getD 1 []) MAX_FILENAME_LEN)
      ([progName, [0x61]].getD 1 []) ∧
    ¬ holdsCString
      (strncpy ([progName, List.replicate 256 (0x61 : Byte)].getD 1 []) MAX_FILENAME_LEN)
      ([progName, List.replicate 256 (0x61 : Byte)].getD 1 []) :=
  ⟨(filename_field_copy zeroMachine.fs unevenMem [progName, [0x61]] 1
      (by simp)).2.2.1.mpr (by decide),
   fun h => absurd
     ((filename_field_copy zeroMachine.fs unevenMem
        [progName, List.replicate 256 (0x61 : Byte)] 1
        (by
          intro b hb
          have hb2 : b ∈ List.replicate 256 (0x61 : Byte) := hb
          rw [List.eq_of_mem_replicate hb2]
          decide)).2.2.1.mp h)
     (by
       show ¬ (List.replicate 256 (0x61 : Byte)).length < 256
       rw [List.length_replicate]
       omega)⟩

end WcThreaded
